import Mathlib

/-!
Verification of the HTTP server core (`src/main.rs`): request framing,
request parsing (method / path / typed headers, modelling the source's
regular expressions), routing, and response serialization.

Strings are modelled as `List Char` (Rust `String` / `&str`), raw bytes as
`List Nat` (Rust `Vec<u8>` / `&[u8]`), network reads as a list of chunks.
-/

/-! ### Generic list-scanning helpers (substring search, as used by the
regex literals and by `buffer.windows(4).position(...)`) -/

/-- `listStartsWith pat xs` is true when `pat` is an initial segment of `xs`. -/
def listStartsWith {α : Type} [DecidableEq α] : List α → List α → Bool
  | [], _ => true
  | _ :: _, [] => false
  | p :: ps, x :: xs => if p = x then listStartsWith ps xs else false

/-- Leftmost occurrence search: returns the part before the first occurrence
of `pat` and the part after it. -/
def splitFirstSeq {α : Type} [DecidableEq α] (pat : List α) : List α → Option (List α × List α)
  | [] => if listStartsWith pat ([] : List α) then some ([], []) else none
  | a :: rest =>
    if listStartsWith pat (a :: rest) then some ([], (a :: rest).drop pat.length)
    else match splitFirstSeq pat rest with
      | some pr => some (a :: pr.1, pr.2)
      | none => none

/-- `containsSeq pat xs` is true when `pat` occurs inside `xs`
(Rust `str::contains` for a literal pattern). -/
def containsSeq {α : Type} [DecidableEq α] (pat xs : List α) : Bool :=
  (splitFirstSeq pat xs).isSome

theorem listStartsWith_iff {α : Type} [DecidableEq α] :
    ∀ (pat xs : List α), listStartsWith pat xs = true ↔ ∃ t, xs = pat ++ t := by
  intro pat
  induction pat with
  | nil => intro xs; simp [listStartsWith]
  | cons p ps ih =>
    intro xs
    cases xs with
    | nil => simp [listStartsWith]
    | cons x xs' =>
      simp only [listStartsWith]
      by_cases h : p = x
      · subst h
        rw [if_pos rfl, ih xs']
        constructor
        · rintro ⟨t, rfl⟩; exact ⟨t, rfl⟩
        · rintro ⟨t, ht⟩
          injection ht with _ h2
          exact ⟨t, h2⟩
      · rw [if_neg h]
        constructor
        · intro hf; simp at hf
        · rintro ⟨t, ht⟩
          injection ht with h1 _
          exact absurd h1.symm h

theorem splitFirstSeq_cons_eq {α : Type} [DecidableEq α] (pat : List α) (a : α) (rest : List α) :
    splitFirstSeq pat (a :: rest) =
      if listStartsWith pat (a :: rest) then some ([], (a :: rest).drop pat.length)
      else match splitFirstSeq pat rest with
        | some pr => some (a :: pr.1, pr.2)
        | none => none := rfl

theorem listStartsWith_self_append {α : Type} [DecidableEq α] (pat t : List α) :
    listStartsWith pat (pat ++ t) = true :=
  (listStartsWith_iff _ _).mpr ⟨t, rfl⟩

theorem splitFirstSeq_eq_of_startsWith {α : Type} [DecidableEq α] (pat : List α) :
    ∀ (xs : List α), listStartsWith pat xs = true →
      splitFirstSeq pat xs = some ([], xs.drop pat.length) := by
  intro xs h
  cases xs with
  | nil =>
    cases pat with
    | nil => simp [splitFirstSeq, listStartsWith]
    | cons p ps => simp [listStartsWith] at h
  | cons a rest => rw [splitFirstSeq_cons_eq, if_pos h]

theorem splitFirstSeq_decomp {α : Type} [DecidableEq α] (pat : List α) :
    ∀ (xs pre post : List α), splitFirstSeq pat xs = some (pre, post) →
      xs = pre ++ pat ++ post := by
  intro xs
  induction xs with
  | nil =>
    intro pre post h
    simp only [splitFirstSeq] at h
    by_cases hs : listStartsWith pat ([] : List α) = true
    · rw [if_pos hs] at h
      obtain ⟨t, ht⟩ := (listStartsWith_iff pat []).mp hs
      cases pat with
      | nil => cases h; simp
      | cons p ps => simp at ht
    · rw [if_neg hs] at h; cases h
  | cons a rest ih =>
    intro pre post h
    rw [splitFirstSeq_cons_eq] at h
    by_cases hs : listStartsWith pat (a :: rest) = true
    · rw [if_pos hs] at h
      obtain ⟨t, ht⟩ := (listStartsWith_iff pat (a :: rest)).mp hs
      cases h
      rw [ht, List.drop_left]
      simp [ht]
    · rw [if_neg hs] at h
      cases hrec : splitFirstSeq pat rest with
      | none => rw [hrec] at h; cases h
      | some pr =>
        rw [hrec] at h
        cases h
        have := ih pr.1 pr.2 (by rw [hrec])
        simp [this]

theorem splitFirstSeq_isSome_of_occur {α : Type} [DecidableEq α] (pat : List α) :
    ∀ (pre post : List α), (splitFirstSeq pat (pre ++ pat ++ post)).isSome = true := by
  intro pre
  induction pre with
  | nil =>
    intro post
    have hx : ([] : List α) ++ pat ++ post = pat ++ post := by simp
    rw [hx, splitFirstSeq_eq_of_startsWith pat _ (listStartsWith_self_append pat post)]
    rfl
  | cons c pre' ih =>
    intro post
    have hx : (c :: pre') ++ pat ++ post = c :: (pre' ++ pat ++ post) := by simp
    rw [hx, splitFirstSeq_cons_eq]
    by_cases hs : listStartsWith pat (c :: (pre' ++ pat ++ post)) = true
    · rw [if_pos hs]; rfl
    · rw [if_neg hs]
      have hsome := ih post
      cases hrec : splitFirstSeq pat (pre' ++ pat ++ post) with
      | none => rw [hrec] at hsome; simp at hsome
      | some pr => simp

theorem splitFirstSeq_first {α : Type} [DecidableEq α] (pat : List α) :
    ∀ (xs pre post : List α), splitFirstSeq pat xs = some (pre, post) →
      ∀ j, j < pre.length → ∀ t, xs.drop j ≠ pat ++ t := by
  intro xs
  induction xs with
  | nil =>
    intro pre post h
    simp only [splitFirstSeq] at h
    by_cases hs : listStartsWith pat ([] : List α) = true
    · rw [if_pos hs] at h; cases h; intro j hj; simp at hj
    · rw [if_neg hs] at h; cases h
  | cons a rest ih =>
    intro pre post h
    rw [splitFirstSeq_cons_eq] at h
    by_cases hs : listStartsWith pat (a :: rest) = true
    · rw [if_pos hs] at h; cases h; intro j hj; simp at hj
    · rw [if_neg hs] at h
      cases hrec : splitFirstSeq pat rest with
      | none => rw [hrec] at h; cases h
      | some pr =>
        rw [hrec] at h
        cases h
        intro j hj t
        cases j with
        | zero =>
          intro hcontra
          exact hs ((listStartsWith_iff pat (a :: rest)).mpr ⟨t, by simpa using hcontra⟩)
        | succ j' =>
          simp only [List.drop_succ_cons]
          have hj' : j' < pr.1.length := by simpa using Nat.lt_of_succ_lt_succ hj
          exact ih pr.1 pr.2 (by rw [hrec]) j' hj' t

theorem splitFirstSeq_intro {α : Type} [DecidableEq α] (pat : List α) :
    ∀ (pre post : List α),
      (∀ j, j < pre.length → ∀ t, (pre ++ pat ++ post).drop j ≠ pat ++ t) →
      splitFirstSeq pat (pre ++ pat ++ post) = some (pre, post) := by
  intro pre
  induction pre with
  | nil =>
    intro post _
    have hx : ([] : List α) ++ pat ++ post = pat ++ post := by simp
    rw [hx, splitFirstSeq_eq_of_startsWith pat _ (listStartsWith_self_append pat post),
      List.drop_left]
  | cons c pre' ih =>
    intro post hmin
    have hx : (c :: pre') ++ pat ++ post = c :: (pre' ++ pat ++ post) := by simp
    rw [hx, splitFirstSeq_cons_eq]
    have hns : ¬ listStartsWith pat (c :: (pre' ++ pat ++ post)) = true := by
      intro hs
      obtain ⟨t, ht⟩ := (listStartsWith_iff _ _).mp hs
      apply hmin 0 (by simp) t
      rw [List.drop_zero, hx]
      exact ht
    rw [if_neg hns]
    have hrec := ih post (by
      intro j hj t hcontra
      apply hmin (j + 1) (by simpa using Nat.succ_lt_succ hj) t
      rw [hx]
      simpa using hcontra)
    rw [hrec]

/-! ### Small list facts used throughout -/

theorem drop_append_le {α : Type} :
    ∀ (A : List α) (t : List α) (j : Nat), j ≤ A.length →
      (A ++ t).drop j = A.drop j ++ t := by
  intro A
  induction A with
  | nil =>
    intro t j hj
    have : j = 0 := Nat.le_zero.mp hj
    subst this
    simp
  | cons a A' ih =>
    intro t j hj
    cases j with
    | zero => simp
    | succ j' => simpa using ih t j' (Nat.le_of_succ_le_succ hj)

theorem takeWhile_append_all {α : Type} (p : α → Bool) :
    ∀ (A B : List α), (∀ c ∈ A, p c = true) →
      (A ++ B).takeWhile p = A ++ B.takeWhile p := by
  intro A
  induction A with
  | nil => intro B _; simp
  | cons a A' ih =>
    intro B hall
    have hpa : p a = true := hall a (by simp)
    simp only [List.cons_append, List.takeWhile_cons, hpa]
    rw [ih B (fun c hc => hall c (by simp [hc]))]
    simp

theorem takeWhile_append_stop {α : Type} (p : α → Bool) :
    ∀ (A : List α) (c : α) (B : List α), p c = false →
      (A ++ c :: B).takeWhile p = A.takeWhile p := by
  intro A
  induction A with
  | nil => intro c B hc; simp [List.takeWhile_cons, hc]
  | cons a A' ih =>
    intro c B hc
    simp only [List.cons_append, List.takeWhile_cons]
    cases hpa : p a with
    | true => rw [ih c B hc]
    | false => rfl

theorem dropWhile_append_all {α : Type} (p : α → Bool) :
    ∀ (A B : List α), (∀ c ∈ A, p c = true) →
      (A ++ B).dropWhile p = B.dropWhile p := by
  intro A
  induction A with
  | nil => intro B _; simp
  | cons a A' ih =>
    intro B hall
    have hpa : p a = true := hall a (by simp)
    simp only [List.cons_append, List.dropWhile_cons, hpa]
    exact ih B (fun c hc => hall c (by simp [hc]))

theorem dropWhile_append_stop {α : Type} (p : α → Bool) :
    ∀ (A : List α) (c : α) (B : List α), p c = false →
      (A ++ c :: B).dropWhile p = A.dropWhile p ++ c :: B := by
  intro A
  induction A with
  | nil => intro c B hc; simp [List.dropWhile_cons, hc]
  | cons a A' ih =>
    intro c B hc
    simp only [List.cons_append, List.dropWhile_cons]
    cases hpa : p a with
    | true => exact ih c B hc
    | false => rfl

theorem dropWhile_len_le {α : Type} (p : α → Bool) :
    ∀ (l : List α), (l.dropWhile p).length ≤ l.length := by
  intro l
  induction l with
  | nil => simp
  | cons a l' ih =>
    simp only [List.dropWhile_cons]
    cases hpa : p a with
    | true => exact Nat.le_succ_of_le ih
    | false => simp

/-! ### Character classes and trimming (Rust `char::is_whitespace` /
`str::trim`, and the regex classes `\s`, `.`) -/

/-- The Unicode `White_Space` property, used by Rust `str::trim` and by the
`\s` class of the `regex` crate. -/
def rustIsWs (c : Char) : Bool :=
  let n := c.toNat
  (decide (9 ≤ n) && decide (n ≤ 13)) || decide (n = 32) || decide (n = 133) ||
    decide (n = 160) || decide (n = 5760) ||
    (decide (8192 ≤ n) && decide (n ≤ 8202)) || decide (n = 8232) ||
    decide (n = 8233) || decide (n = 8239) || decide (n = 8287) || decide (n = 12288)

/-- Complement of `\n`: what the regex metacharacter `.` matches. -/
def isNotNewline (c : Char) : Bool :=
  if c = '\n' then false else true

/-- Rust `str::trim`: remove `White_Space` characters from both ends. -/
def rustTrim (l : List Char) : List Char :=
  ((l.dropWhile rustIsWs).reverse.dropWhile rustIsWs).reverse

/-- Suffix of `l` after its last `'\n'` (all of `l` when it has none); this is
where a match of the lazy `(.*?)` group before a `:` can start. -/
def lastLineOf (l : List Char) : List Char :=
  (l.reverse.takeWhile isNotNewline).reverse

/-! ### Typed header values (`TypedHeader`, `value.parse::<i32>()`) -/

inductive TypedHeader where
  | Number (n : Int)
  | Str (s : List Char)
deriving DecidableEq

/-- Value of a digit string read in base 10. -/
def digitsToNat (l : List Char) : Nat :=
  l.foldl (fun a c => a * 10 + (c.toNat - 48)) 0

/-- Rust `str::parse::<i32>()`: optional sign, one or more ASCII digits,
whole-string match, result within the `i32` range. -/
def parseI32 (v : List Char) : Option Int :=
  match v with
  | [] => none
  | c :: rest =>
    if c = '-' then parseI32Core true rest
    else if c = '+' then parseI32Core false rest
    else parseI32Core false (c :: rest)
where
  parseI32Core (neg : Bool) (digits : List Char) : Option Int :=
    if digits = [] then none
    else if digits.all Char.isDigit then
      let n : Int := if neg then -(digitsToNat digits : Int) else (digitsToNat digits : Int)
      if -2147483648 ≤ n ∧ n ≤ 2147483647 then some n else none
    else none

/-- Header-value classification done by `HttpRequest::from_str`: integer when
the trimmed value parses as an `i32`, string otherwise. -/
def classifyValue (v : List Char) : TypedHeader :=
  match parseI32 v with
  | some n => .Number n
  | none => .Str v

/-! ### The header regex `(.*?):\s*(.*)\s*` iterated over the whole text
(`HEADERS_RE.captures_iter`), modelled as an executable scanner.

Each match is anchored at the first `:` of the remaining text; the key
capture is what the lazy dot group can reach (back to the last `'\n'`),
`\s*` then greedily eats whitespace (including line breaks), the greedy
value capture runs to the next `'\n'`, and the trailing `\s*` greedily eats
whitespace, after which the iterator resumes. -/

def scanValue (afterColon : List Char) : List Char :=
  (afterColon.dropWhile rustIsWs).takeWhile isNotNewline

def scanRest (afterColon : List Char) : List Char :=
  (((afterColon.dropWhile rustIsWs).drop (scanValue afterColon).length)).dropWhile rustIsWs

theorem scanRest_len_le (a : List Char) : (scanRest a).length ≤ a.length := by
  unfold scanRest
  have h1 := dropWhile_len_le rustIsWs
    ((a.dropWhile rustIsWs).drop (scanValue a).length)
  have h2 : ((a.dropWhile rustIsWs).drop (scanValue a).length).length ≤
      (a.dropWhile rustIsWs).length := by
    rw [List.length_drop]; omega
  have h3 := dropWhile_len_le rustIsWs a
  omega

def scanHeaders (xs : List Char) : List (List Char × List Char) :=
  match h : splitFirstSeq [':'] xs with
  | none => []
  | some pr => (lastLineOf pr.1, scanValue pr.2) :: scanHeaders (scanRest pr.2)
termination_by xs.length
decreasing_by
  have hd := splitFirstSeq_decomp [':'] xs pr.1 pr.2 h
  have h1 : (scanRest pr.2).length ≤ pr.2.length := scanRest_len_le pr.2
  have h2 : xs.length = pr.1.length + 1 + pr.2.length := by
    rw [hd]
    simp only [List.length_append, List.length_cons, List.length_nil]
  omega

/-! ### Header map (`HashMap<String, TypedHeader>`, observed through `get`;
`insert` overwrites, so the last occurrence of a key wins) -/

abbrev HeadersMap := List Char → Option TypedHeader

def emptyHeaders : HeadersMap := fun _ => none

def insertHeader (m : HeadersMap) (k : List Char) (v : TypedHeader) : HeadersMap :=
  fun q => if q = k then some v else m q

/-- The header-population loop of `HttpRequest::from_str`: for each capture,
trim key and value and insert the classified value. -/
def buildHeaders (caps : List (List Char × List Char)) : HeadersMap :=
  caps.foldl (fun m p => insertHeader m (rustTrim p.1) (classifyValue (rustTrim p.2))) emptyHeaders

/-! ### Request-line extraction: `METHOD_RE = ^(.*)\s+/.*\s+HTTP/1\.1` and
`PATH_RE = .*\s+/(.*)\s+HTTP/1\.1`, with leftmost-first match semantics:
a dot group cannot cross `'\n'`, greedy groups take the longest alternative
whose continuation still matches, `\s+` takes a maximal whitespace run. -/

def firstLineLen (xs : List Char) : Nat := (xs.takeWhile isNotNewline).length

def httpLit : List Char := "HTTP/1.1".data

/-- Matching of the regex tail `\s+HTTP/1\.1` somewhere after a dot-star:
true when some split of the current line allows a nonempty whitespace run
followed by the literal. -/
def tailHttpOk (ys : List Char) : Bool :=
  (List.range (firstLineLen ys + 1)).any fun b =>
    let u := ys.drop b
    let w := u.takeWhile rustIsWs
    decide (1 ≤ w.length) && listStartsWith httpLit (u.drop w.length)

/-- Whether `METHOD_RE` succeeds with capture-1 length `a`. -/
def methodCandOk (xs : List Char) (a : Nat) : Bool :=
  let t := xs.drop a
  let w := t.takeWhile rustIsWs
  decide (1 ≤ w.length) &&
    (match t.drop w.length with
     | '/' :: ys => tailHttpOk ys
     | _ => false)

/-- Model of `METHOD_RE.captures(s)` followed by `caps.get(1)`: the greedy
anchored `(.*)` takes the longest viable capture. -/
def extractMethod (xs : List Char) : Option (List Char) :=
  ((List.range (firstLineLen xs + 1)).reverse.find? (methodCandOk xs)).map fun a => xs.take a

/-- Capture of the greedy `(.*)` in `/(.*)\s+HTTP/1\.1`: the longest stretch
of the current line followed by whitespace and the literal. -/
def afterSlashCapture (ys : List Char) : Option (List Char) :=
  ((List.range (firstLineLen ys + 1)).reverse.find? fun b =>
      let u := ys.drop b
      let w := u.takeWhile rustIsWs
      decide (1 ≤ w.length) && listStartsWith httpLit (u.drop w.length)).map
    fun b => ys.take b

/-- Attempt to match `PATH_RE` with the match starting at the head of `t`. -/
def pathMatchAt (t : List Char) : Option (List Char) :=
  ((List.range (firstLineLen t + 1)).reverse.find? fun a =>
      let u := t.drop a
      let w := u.takeWhile rustIsWs
      decide (1 ≤ w.length) &&
        (match u.drop w.length with
         | '/' :: ys => (afterSlashCapture ys).isSome
         | _ => false)).bind fun a =>
    let u := t.drop a
    let w := u.takeWhile rustIsWs
    match u.drop w.length with
    | '/' :: ys => afterSlashCapture ys
    | _ => none

/-- Model of `extract_path` (`PATH_RE.captures` + `caps.get(1)`): leftmost
match start, then greedy groups. -/
def extract_path (xs : List Char) : Option (List Char) :=
  ((List.range (xs.length + 1)).find? fun s => (pathMatchAt (xs.drop s)).isSome).bind
    fun s => pathMatchAt (xs.drop s)

/-- Model of `extract_path_echo` (`ECHO_RE = echo/([^\s\r\n]*)` applied to the
parsed path): capture after the first occurrence of `echo/`. -/
def extract_path_echo (p : List Char) : Option (List Char) :=
  (splitFirstSeq "echo/".data p).map fun pr => pr.2.takeWhile fun c => !(rustIsWs c)

/-- Model of `extract_path_filename` (`FILE_NAME_RE = files/([^\s\r\n]*)`). -/
def extract_path_filename (p : List Char) : Option (List Char) :=
  (splitFirstSeq "files/".data p).map fun pr => pr.2.takeWhile fun c => !(rustIsWs c)

/-! ### `HttpRequest` and `HttpRequest::from_str` -/

structure HttpRequest where
  method : List Char
  path : List Char
  headers : HeadersMap
  body : Option (List Nat)

/-- `HttpRequest::from_str`: method capture, then path capture, then the
header scan; `None` when either request-line regex fails. -/
def fromStr (s : List Char) : Option HttpRequest :=
  match extractMethod s with
  | none => none
  | some m =>
    match extract_path s with
    | none => none
    | some p =>
      some { method := m, path := p, headers := buildHeaders (scanHeaders s), body := none }

/-! ### `HttpResponse` and its serializers -/

inductive HttpResponse where
  | Ok (body : Option (List Char))
  | OkStream (body : Option (List Nat))
  | NotFound
  | Created
deriving DecidableEq

/-- UTF-8 byte length of a string (`str::as_bytes().len()` /
`body.as_bytes().len()` in the source). -/
def utf8Len (l : List Char) : Nat := (l.map Char.utf8Size).sum

/-- `IntoResponse::into_response`. -/
def into_response : HttpResponse → String
  | .Ok (some body) =>
      "HTTP/1.1 200 OK\r\nContent-Type: text/plain\r\nContent-Length: " ++
        Nat.repr (utf8Len body) ++ "\r\n\r\n" ++ String.mk body
  | .Ok none => "HTTP/1.1 200 OK\r\n\r\n"
  | .NotFound => "HTTP/1.1 404 NOT FOUND\r\n\r\n"
  | .Created => "HTTP/1.1 201 CREATED\r\n\r\n"
  | .OkStream _ => ""

/-- UTF-8 encoding of one character. -/
def utf8EncodeChar (c : Char) : List Nat :=
  let n := c.toNat
  if n < 128 then [n]
  else if n < 2048 then [192 + n / 64, 128 + n % 64]
  else if n < 65536 then [224 + n / 4096, 128 + (n / 64) % 64, 128 + n % 64]
  else [240 + n / 262144, 128 + (n / 4096) % 64, 128 + (n / 64) % 64, 128 + n % 64]

/-- Bytes of a string (`str::as_bytes().to_vec()`). -/
def strBytes (s : String) : List Nat := (s.data.map utf8EncodeChar).flatten

/-- `IntoStreamResponse::into_stream_response`. -/
def into_stream_response (r : HttpResponse) : List Nat :=
  match r with
  | .OkStream (some body) =>
      strBytes ("HTTP/1.1 200 OK\r\nContent-Type: application/octet-stream\r\nContent-Length: "
        ++ Nat.repr body.length ++ "\r\n\r\n") ++ body
  | _ => strBytes (into_response r)

/-! ### Environment of a connection: the `--directory` argument and the
filesystem (an external collaborator: `file_contents` collapses every
failure to `Err`, and `write_file` returns `Err` when `File::create` fails
but panics, via `unwrap()`, when `write_all` or `flush` fails) -/

structure Env where
  dir : Option (List Char)
  fileRead : List Char → Option (List Nat)
  fileCreateOk : List Char → Bool
  fileWriteOk : List Char → Bool

/-- `PathBuf::push` on `PathBuf::from(dir)`: an absolute component replaces
the path, otherwise a separator is inserted as needed. -/
def pathJoin (dir file : List Char) : List Char :=
  if file.head? = some '/' then file
  else if dir = [] then file
  else if dir.getLast? = some '/' then dir ++ file
  else dir ++ '/' :: file

inductive RouteResult where
  | ok (resp : HttpResponse) (fileWrite : Option (List Char × List Nat))
  | panicked
deriving DecidableEq

def GETm : List Char := "GET".data
def POSTm : List Char := "POST".data

/-- The route dispatch of `main` (the `if method == GET { ... } else if
method == POST { ... }` chain over the destructured request), including the
`write_file` call of the POST files branch.  `response` starts as
`NotFound` and is only overwritten by a matching branch. -/
def route (env : Env) (method path : List Char) (headers : HeadersMap)
    (body : Option (List Nat)) : RouteResult :=
  if method = GETm then
    if path = [] then .ok (.Ok none) none
    else match extract_path_echo path with
    | some echo => .ok (.Ok (some echo)) none
    | none =>
      if path = "user-agent".data then
        match headers "User-Agent".data with
        | some (.Str ua) => .ok (.Ok (some ua)) none
        | _ => .ok .NotFound none
      else if containsSeq "files".data path then
        match env.dir, extract_path_filename path with
        | some dirName, some fileName =>
          match env.fileRead (pathJoin dirName fileName) with
          | some contents => .ok (.OkStream (some contents)) none
          | none => .ok .NotFound none
        | _, _ => .ok .NotFound none
      else .ok .NotFound none
  else if method = POSTm then
    if containsSeq "files".data path then
      match env.dir, extract_path_filename path, body with
      | some dirName, some fileName, some data =>
        if env.fileCreateOk (pathJoin dirName fileName) then
          if env.fileWriteOk (pathJoin dirName fileName) then
            .ok .Created (some (pathJoin dirName fileName, data))
          else .panicked
        else .ok .NotFound none
      | _, _, _ => .ok .NotFound none
    else .ok .NotFound none
  else .ok .NotFound none

/-! ### `process_stream`: read chunks until `\r\n\r\n` is in the buffer -/

def crlf2b : List Nat := [13, 10, 13, 10]

/-- The read loop: append each read chunk to the buffer, fail with
`UnexpectedEof` (`none`) on a zero-byte read, and stop at the first chunk
after which `\r\n\r\n` occurs in the accumulated buffer, returning the
buffer and the offset just past that first occurrence. -/
def readLoop (buffer : List Nat) : List (List Nat) → Option (List Nat × Nat)
  | [] => none
  | c :: rest =>
    if c = [] then none
    else
      match splitFirstSeq crlf2b (buffer ++ c) with
      | some pr => some (buffer ++ c, pr.1.length + 4)
      | none => readLoop (buffer ++ c) rest

/-- `process_stream`, with the connection's successive reads given as a list
of chunks (the end of the list is the peer closing the socket). -/
def processStream (chunks : List (List Nat)) : Option (List Nat × Nat) :=
  readLoop [] chunks

/-! ### Lossy UTF-8 decoding (`String::from_utf8_lossy`): well-formed
sequences decode to their scalar value, ill-formed maximal subparts become
U+FFFD. -/

def replacementChar : Char := Char.ofNat 65533

def utf8DecodeLossy : List Nat → List Char
  | [] => []
  | b :: rest =>
    if b < 128 then Char.ofNat b :: utf8DecodeLossy rest
    else if 194 ≤ b ∧ b ≤ 223 then
      match rest with
      | [] => [replacementChar]
      | b2 :: rest2 =>
        if 128 ≤ b2 ∧ b2 ≤ 191 then
          Char.ofNat ((b - 192) * 64 + (b2 - 128)) :: utf8DecodeLossy rest2
        else replacementChar :: utf8DecodeLossy (b2 :: rest2)
    else if 224 ≤ b ∧ b ≤ 239 then
      match rest with
      | [] => [replacementChar]
      | b2 :: rest2 =>
        if (if b = 224 then 160 else 128) ≤ b2 ∧ b2 ≤ (if b = 237 then 159 else 191) then
          match rest2 with
          | [] => [replacementChar]
          | b3 :: rest3 =>
            if 128 ≤ b3 ∧ b3 ≤ 191 then
              Char.ofNat ((b - 224) * 4096 + (b2 - 128) * 64 + (b3 - 128)) ::
                utf8DecodeLossy rest3
            else replacementChar :: utf8DecodeLossy (b3 :: rest3)
        else replacementChar :: utf8DecodeLossy (b2 :: rest2)
    else if 240 ≤ b ∧ b ≤ 244 then
      match rest with
      | [] => [replacementChar]
      | b2 :: rest2 =>
        if (if b = 240 then 144 else 128) ≤ b2 ∧ b2 ≤ (if b = 244 then 143 else 191) then
          match rest2 with
          | [] => [replacementChar]
          | b3 :: rest3 =>
            if 128 ≤ b3 ∧ b3 ≤ 191 then
              match rest3 with
              | [] => [replacementChar]
              | b4 :: rest4 =>
                if 128 ≤ b4 ∧ b4 ≤ 191 then
                  Char.ofNat ((b - 240) * 262144 + (b2 - 128) * 4096 + (b3 - 128) * 64 +
                    (b4 - 128)) :: utf8DecodeLossy rest4
                else replacementChar :: utf8DecodeLossy (b4 :: rest4)
            else replacementChar :: utf8DecodeLossy (b3 :: rest3)
        else replacementChar :: utf8DecodeLossy (b2 :: rest2)
    else replacementChar :: utf8DecodeLossy rest

/-! ### The per-connection loop of `main` -/

/-- What `main` does after `process_stream` succeeds: decode the header part,
parse it, attach the body slice (`req.with_body(&buf[body_pos..])`). -/
def parsedRequestOf (chunks : List (List Nat)) : Option HttpRequest :=
  match processStream chunks with
  | none => none
  | some (buf, bodyPos) =>
    (fromStr (utf8DecodeLossy (buf.take bodyPos))).map
      fun req => { req with body := some (buf.drop bodyPos) }

/-- The final write of `main`: stream responses use
`into_stream_response`, `Ok`/`Created` use `into_response`, and everything
else (only `NotFound` remains) writes the `NotFound` serialization. -/
def responseBytes (r : HttpResponse) : List Nat :=
  match r with
  | .OkStream _ => into_stream_response r
  | .Ok _ => strBytes (into_response r)
  | .Created => strBytes (into_response r)
  | .NotFound => strBytes (into_response HttpResponse.NotFound)

inductive ConnResult where
  | noResponse
  | wrote (bytes : List Nat) (fileWrite : Option (List Char × List Nat))
  | panicked
deriving DecidableEq

/-- One whole connection of `main`: frame the request, parse it (on parse
failure `response` stays `NotFound` and is still written), route it, write
the serialized response. `noResponse` is the `process_stream` error path,
where the connection is abandoned with nothing written. -/
def handleConnection (env : Env) (chunks : List (List Nat)) : ConnResult :=
  match processStream chunks with
  | none => .noResponse
  | some (buf, bodyPos) =>
    match (fromStr (utf8DecodeLossy (buf.take bodyPos))).map
        (fun req => { req with body := some (buf.drop bodyPos) }) with
    | none => .wrote (responseBytes .NotFound) none
    | some req =>
      match route env req.method req.path req.headers req.body with
      | .ok resp w => .wrote (responseBytes resp) w
      | .panicked => .panicked

/-! ### Concrete fixtures shared by witnesses and counterexamples -/

/-- No `--directory`, empty filesystem, all writes succeed. -/
def env0 : Env :=
  { dir := none, fileRead := fun _ => none,
    fileCreateOk := fun _ => true, fileWriteOk := fun _ => true }

def notFoundBytes : List Nat := strBytes (into_response HttpResponse.NotFound)

/-- Effect of a completed `write_file` call on the filesystem view:
`File::create` creates or truncates, so the target ends up holding exactly
the written data. -/
def applyFileWrite (fs : List Char → Option (List Nat))
    (w : Option (List Char × List Nat)) : List Char → Option (List Nat) :=
  match w with
  | none => fs
  | some pd => fun q => if q = pd.1 then some pd.2 else fs q

/-! ### Claim C8 -/

/-- Claim C8: serialization of the non-text-body variants is bit-exact:
`Ok(None)`, `NotFound` and `Created` produce exactly their status line plus
blank line, and `into_stream_response` of `OkStream(None)` is empty. -/
theorem c8_serialization_exact :
    into_response (HttpResponse.Ok none) = "HTTP/1.1 200 OK\r\n\r\n" ∧
    into_response HttpResponse.NotFound = "HTTP/1.1 404 NOT FOUND\r\n\r\n" ∧
    into_response HttpResponse.Created = "HTTP/1.1 201 CREATED\r\n\r\n" ∧
    into_stream_response (HttpResponse.OkStream none) = [] :=
  ⟨rfl, rfl, rfl, rfl⟩

/-! ### Claim C9 -/

/-- Claim C9: for a GET whose parsed path is `user-agent`, the response is
`Ok(Some v)` exactly when the header map holds `User-Agent` with the string
tag, and `NotFound` in every other case (absent, or integer-tagged). -/
theorem c9_user_agent (env : Env) (headers : HeadersMap) (body : Option (List Nat)) :
    route env GETm "user-agent".data headers body =
      match headers "User-Agent".data with
      | some (.Str ua) => .ok (.Ok (some ua)) none
      | _ => .ok .NotFound none := by
  have h1 : ¬ ("user-agent".data = ([] : List Char)) := by decide
  have hecho : extract_path_echo "user-agent".data = none := by decide
  cases hua : headers "User-Agent".data with
  | none =>
    unfold route
    rw [if_pos rfl, if_neg h1, hecho, if_pos rfl, hua]
  | some th =>
    cases th with
    | Number n =>
      unfold route
      rw [if_pos rfl, if_neg h1, hecho, if_pos rfl, hua]
    | Str ua =>
      unfold route
      rw [if_pos rfl, if_neg h1, hecho, if_pos rfl, hua]

/-- Claim C9 witness: concrete instance with the header present as a string
and a concrete instance with it integer-tagged. -/
theorem c9_witness :
    route env0 GETm "user-agent".data
        (insertHeader emptyHeaders "User-Agent".data (.Str "curl".data)) none =
      .ok (.Ok (some "curl".data)) none ∧
    route env0 GETm "user-agent".data
        (insertHeader emptyHeaders "User-Agent".data (.Number 7)) none =
      .ok .NotFound none := by
  constructor
  · rw [c9_user_agent env0 _ none]
    decide
  · rw [c9_user_agent env0 _ none]
    decide

/-! ### Claim C2 -/

/-- Claim C2 (amended): the echo check runs before the files check, so every
GET whose path matches `echo/<rest>` gets `Ok(Some(<rest>))` even when the
path also contains `files`; in particular `/files/echo/x` routes as echo. -/
theorem c2_echo_priority (env : Env) (path : List Char) (headers : HeadersMap)
    (body : Option (List Nat)) (rest : List Char)
    (h : extract_path_echo path = some rest) :
    route env GETm path headers body = .ok (.Ok (some rest)) none := by
  have hne : ¬ (path = []) := by
    intro hnil
    rw [hnil, (by decide : extract_path_echo ([] : List Char) = none)] at h
    cases h
  unfold route
  rw [if_pos rfl, if_neg hne, h]

/-- Concrete environment in which the files branch would succeed: directory
configured and the file `echo/x` present under it. -/
def envFiles : Env :=
  { dir := some "/tmp/dir".data,
    fileRead := fun p => if p = "/tmp/dir/echo/x".data then some [104, 105] else none,
    fileCreateOk := fun _ => true, fileWriteOk := fun _ => true }

/-- Claim C2 counterexample: a GET to `/files/echo/x` does NOT match the
files branch — even with the file readable, the router answers with the
echo response `Ok(Some("x"))`, not the files response `OkStream(..)`. -/
theorem c2_counterexample :
    route envFiles GETm "files/echo/x".data emptyHeaders none =
      .ok (.Ok (some "x".data)) none ∧
    route envFiles GETm "files/echo/x".data emptyHeaders none ≠
      .ok (.OkStream (some [104, 105])) none := by
  constructor
  · decide
  · decide

/-- Claim C2 witness: the amended theorem applied at the path
`files/echo/x`. -/
theorem c2_witness :
    extract_path_echo "files/echo/x".data = some "x".data ∧
    route env0 GETm "files/echo/x".data emptyHeaders none =
      .ok (.Ok (some "x".data)) none :=
  ⟨by decide, c2_echo_priority env0 "files/echo/x".data emptyHeaders none "x".data (by decide)⟩

/-! ### Claim C7 -/

/-- Claim C7 (amended): POST with `files` in the path, a configured
directory, an extracted file name and an attached body targets
`<directory>/<filename>`; success of `File::create` plus the write yields
`Created` with the file overwritten to exactly the body; a `File::create`
failure yields the `NotFound` response; but a failure of
`write_all`/`flush` hits `unwrap()` and panics the connection thread, so
the client gets no response at all in that case. -/
theorem c7_post_files (env : Env) (path : List Char) (headers : HeadersMap)
    (dirName fileName : List Char) (data : List Nat)
    (hfiles : containsSeq "files".data path = true)
    (hdir : env.dir = some dirName)
    (hname : extract_path_filename path = some fileName) :
    route env POSTm path headers (some data) =
      (if env.fileCreateOk (pathJoin dirName fileName) then
        if env.fileWriteOk (pathJoin dirName fileName) then
          .ok .Created (some (pathJoin dirName fileName, data))
        else .panicked
      else .ok .NotFound none) ∧
    applyFileWrite env.fileRead (some (pathJoin dirName fileName, data))
        (pathJoin dirName fileName) = some data := by
  constructor
  · unfold route
    rw [if_neg (by decide : ¬ (POSTm = GETm)), if_pos rfl, if_pos hfiles, hdir, hname]
  · unfold applyFileWrite
    simp

/-- Filesystem where `File::create` succeeds but the write itself fails. -/
def envCW : Env :=
  { dir := some "/d".data, fileRead := fun _ => none,
    fileCreateOk := fun _ => true, fileWriteOk := fun _ => false }

/-- Claim C7 counterexample: a filesystem write failure in the write phase
does not collapse to `NotFound` — the thread panics and nothing is written
to the client. -/
theorem c7_counterexample :
    route envCW POSTm "files/a".data emptyHeaders (some [104]) = .panicked ∧
    (RouteResult.panicked ≠ .ok .NotFound none) := by
  constructor
  · decide
  · decide

/-- Claim C7 witness: the amended theorem at a concrete successful write
and at a concrete create failure. -/
theorem c7_witness :
    route envCW POSTm "files/a".data emptyHeaders (some [104]) =
      (if envCW.fileCreateOk (pathJoin "/d".data "a".data) then
        if envCW.fileWriteOk (pathJoin "/d".data "a".data) then
          .ok .Created (some (pathJoin "/d".data "a".data, [104]))
        else .panicked
      else .ok .NotFound none) :=
  (c7_post_files envCW "files/a".data emptyHeaders "/d".data "a".data [104]
    (by decide) (by decide) (by decide)).1

/-! ### Claim C10 -/

theorem parseI32_cons (c : Char) (rest : List Char) :
    parseI32 (c :: rest) =
      if c = '-' then parseI32.parseI32Core true rest
      else if c = '+' then parseI32.parseI32Core false rest
      else parseI32.parseI32Core false (c :: rest) := rfl

theorem parseI32Core_none_of_out_of_range (neg : Bool) (ds : List Char) (hne : ds ≠ [])
    (hdig : ds.all Char.isDigit = true)
    (hout : ¬ ((-2147483648 : Int) ≤
        (if neg then -(digitsToNat ds : Int) else (digitsToNat ds : Int)) ∧
        (if neg then -(digitsToNat ds : Int) else (digitsToNat ds : Int)) ≤ 2147483647)) :
    parseI32.parseI32Core neg ds = none := by
  unfold parseI32.parseI32Core
  rw [if_neg hne, if_pos hdig]
  simp [hout]

/-- Claim C10: integer classification is bounded by the `i32` range: a purely
numeric header value whose magnitude falls outside `[-2147483648, 2147483647]`
is classified with the string tag even though it is syntactically a base-10
signed integer. -/
theorem c10_i32_range (ds : List Char) (hne : ds ≠ [])
    (hdig : ds.all Char.isDigit = true) :
    ((2147483647 : Int) < (digitsToNat ds : Int) → classifyValue ds = .Str ds) ∧
    ((2147483648 : Int) < (digitsToNat ds : Int) →
      classifyValue ('-' :: ds) = .Str ('-' :: ds)) := by
  constructor
  · intro hbig
    rcases ds with _ | ⟨c, cs⟩
    · exact absurd rfl hne
    · have hc : c.isDigit = true := List.all_eq_true.mp hdig c (by simp)
      have hcm : ¬ (c = '-') := fun h => by
        rw [h] at hc; exact absurd hc (by decide)
      have hcp : ¬ (c = '+') := fun h => by
        rw [h] at hc; exact absurd hc (by decide)
      have hparse : parseI32 (c :: cs) = none := by
        rw [parseI32_cons, if_neg hcm, if_neg hcp]
        apply parseI32Core_none_of_out_of_range false (c :: cs) hne hdig
        intro hand
        have h2 := hand.2
        simp only [Bool.false_eq_true, if_false] at h2
        omega
      unfold classifyValue
      rw [hparse]
  · intro hbig
    have hparse : parseI32 ('-' :: ds) = none := by
      rw [parseI32_cons, if_pos rfl]
      apply parseI32Core_none_of_out_of_range true ds hne hdig
      intro hand
      have h1 := hand.1
      simp only [if_pos] at h1
      omega
    unfold classifyValue
    rw [hparse]

/-- Claim C10 witness: `2147483648` (one past `i32::MAX`) is stored as a
string, and so is `-2147483649`. -/
theorem c10_witness :
    ("2147483648".data ≠ [] ∧ "2147483648".data.all Char.isDigit = true ∧
      (2147483647 : Int) < (digitsToNat "2147483648".data : Int)) ∧
    classifyValue "2147483648".data = .Str "2147483648".data ∧
    classifyValue ('-' :: "2147483649".data) = .Str ('-' :: "2147483649".data) :=
  ⟨⟨by decide, by decide, by decide⟩,
    (c10_i32_range "2147483648".data (by decide) (by decide)).1 (by decide),
    (c10_i32_range "2147483649".data (by decide) (by decide)).2 (by decide)⟩

/-! ### Claim C1 -/

/-- Claim C1 (amended): when the header block is framed successfully but the
text does not match the request-line grammar, the parse failure is logged
and the server still writes a response: the `NotFound` serialization
`HTTP/1.1 404 NOT FOUND\r\n\r\n` (the `response` variable keeps its initial
value and the final write always runs). -/
theorem c1_parse_failure_writes_not_found (env : Env) (chunks : List (List Nat))
    (buf : List Nat) (bodyPos : Nat)
    (hps : processStream chunks = some (buf, bodyPos))
    (hparse : fromStr (utf8DecodeLossy (buf.take bodyPos)) = none) :
    handleConnection env chunks =
      .wrote (strBytes (into_response HttpResponse.NotFound)) none := by
  unfold handleConnection
  simp only [hps, hparse, Option.map_none']
  rfl

/-- Claim C1 counterexample: a framed but unparseable request (`XYZ\r\n\r\n`)
receives the 404 bytes — a nonempty write, contradicting "no response bytes
at all". -/
theorem c1_counterexample :
    handleConnection env0 [[88, 89, 90, 13, 10, 13, 10]] =
      .wrote notFoundBytes none ∧ notFoundBytes ≠ [] := by
  constructor
  · decide
  · decide

/-- Claim C1 witness: the amended theorem at the concrete unparseable
request `X\r\n\r\n`. -/
theorem c1_witness :
    handleConnection env0 [[88, 13, 10, 13, 10]] =
      .wrote (strBytes (into_response HttpResponse.NotFound)) none :=
  c1_parse_failure_writes_not_found env0 [[88, 13, 10, 13, 10]]
    [88, 13, 10, 13, 10] 5 (by decide) (by rfl)

/-! ### Frame-reader lemmas (claims C6 and C3) -/

theorem readLoop_some_ex :
    ∀ (chunks : List (List Nat)) (buffer buf : List Nat) (pos : Nat),
      readLoop buffer chunks = some (buf, pos) →
      (∃ t, buffer ++ chunks.flatten = buf ++ t) ∧
      ∃ pre post, splitFirstSeq crlf2b buf = some (pre, post) ∧ pos = pre.length + 4 := by
  intro chunks
  induction chunks with
  | nil =>
    intro buffer buf pos h
    simp [readLoop] at h
  | cons c cs ih =>
    intro buffer buf pos h
    unfold readLoop at h
    by_cases hc : c = []
    · rw [if_pos hc] at h; cases h
    · rw [if_neg hc] at h
      cases hsp : splitFirstSeq crlf2b (buffer ++ c) with
      | some pr =>
        rw [hsp] at h
        cases h
        constructor
        · exact ⟨cs.flatten, by simp⟩
        · exact ⟨pr.1, pr.2, by rw [hsp], rfl⟩
      | none =>
        rw [hsp] at h
        obtain ⟨⟨t, ht⟩, hrest⟩ := ih (buffer ++ c) buf pos h
        constructor
        · exact ⟨t, by simpa [List.append_assoc] using ht⟩
        · exact hrest

theorem readLoop_none_iff :
    ∀ (chunks : List (List Nat)) (buffer : List Nat),
      (∀ c ∈ chunks, c ≠ []) →
      splitFirstSeq crlf2b buffer = none →
      (readLoop buffer chunks = none ↔
        splitFirstSeq crlf2b (buffer ++ chunks.flatten) = none) := by
  intro chunks
  induction chunks with
  | nil =>
    intro buffer _ hbuf
    simp [readLoop, hbuf]
  | cons c cs ih =>
    intro buffer hne hbuf
    have hc : c ≠ [] := hne c (by simp)
    unfold readLoop
    rw [if_neg hc]
    cases hsp : splitFirstSeq crlf2b (buffer ++ c) with
    | some pr =>
      have hdec := splitFirstSeq_decomp crlf2b (buffer ++ c) pr.1 pr.2 (by rw [hsp])
      have hocc : (splitFirstSeq crlf2b (buffer ++ (c :: cs).flatten)).isSome = true := by
        have : buffer ++ (c :: cs).flatten = pr.1 ++ crlf2b ++ (pr.2 ++ cs.flatten) := by
          simp only [List.flatten_cons]
          rw [← List.append_assoc buffer c cs.flatten, hdec]
          simp [List.append_assoc]
        rw [this]
        exact splitFirstSeq_isSome_of_occur crlf2b pr.1 (pr.2 ++ cs.flatten)
      constructor
      · intro habs; cases habs
      · intro habs
        rw [habs] at hocc
        simp at hocc
    | none =>
      have := ih (buffer ++ c) (fun d hd => hne d (by simp [hd])) hsp
      rw [this]
      simp [List.append_assoc]

/-! ### Claim C6 -/

/-- Claim C6: `process_stream` fails with `UnexpectedEof` (and the
connection is abandoned with no bytes written) exactly when the reads run
out before `\r\n\r\n` ever appears in the accumulated bytes; otherwise it
returns the accumulated buffer together with the offset immediately after
the first occurrence of `\r\n\r\n` in it. -/
theorem c6_frame_reader (chunks : List (List Nat)) (env : Env)
    (hne : ∀ c ∈ chunks, c ≠ []) :
    (processStream chunks = none ↔ splitFirstSeq crlf2b chunks.flatten = none) ∧
    (∀ buf pos, processStream chunks = some (buf, pos) →
      (∃ t, chunks.flatten = buf ++ t) ∧
      ∃ pre post, splitFirstSeq crlf2b buf = some (pre, post) ∧ pos = pre.length + 4) ∧
    (processStream chunks = none → handleConnection env chunks = .noResponse) := by
  refine ⟨?_, ?_, ?_⟩
  · have := readLoop_none_iff chunks [] hne (by decide)
    simpa [processStream] using this
  · intro buf pos h
    have := readLoop_some_ex chunks [] buf pos h
    simpa using this
  · intro h
    unfold handleConnection
    rw [h]

/-- Claim C6 witness: a connection closing after one chunk without the
boundary fails, and a concrete framed request returns offset 18 = 14 + 4
(first occurrence at 14). -/
theorem c6_witness :
    processStream [[72, 105]] = none ∧
    (∃ t, ([[71, 69, 84, 32, 47, 32, 72, 84, 84, 80, 47, 49, 46, 49, 13, 10, 13, 10],
        [104, 105]] : List (List Nat)).flatten =
      [71, 69, 84, 32, 47, 32, 72, 84, 84, 80, 47, 49, 46, 49, 13, 10, 13, 10] ++ t) := by
  constructor
  · exact (c6_frame_reader [[72, 105]] env0 (by decide)).1.mpr (by decide)
  · exact ((c6_frame_reader _ env0 (by decide)).2.1
      [71, 69, 84, 32, 47, 32, 72, 84, 84, 80, 47, 49, 46, 49, 13, 10, 13, 10] 18
      (by decide)).1

/-! ### Claim C3 -/

/-- Claim C3 (amended): the body attached to the parsed request is exactly
the suffix, past the boundary, of the bytes accumulated up to and including
the read in which `\r\n\r\n` first appeared; this is a PREFIX of the
complete body the peer sent, equal to it only when no body bytes arrive in
later reads. -/
theorem c3_body_attachment (chunks : List (List Nat)) (buf : List Nat) (bodyPos : Nat)
    (hps : processStream chunks = some (buf, bodyPos)) :
    (∀ req, parsedRequestOf chunks = some req → req.body = some (buf.drop bodyPos)) ∧
    (∃ t, chunks.flatten.drop bodyPos = buf.drop bodyPos ++ t) := by
  constructor
  · intro req hreq
    have heq : parsedRequestOf chunks =
        (fromStr (utf8DecodeLossy (buf.take bodyPos))).map
          (fun req => { req with body := some (buf.drop bodyPos) }) := by
      unfold parsedRequestOf
      rw [hps]
    rw [heq] at hreq
    cases hfs : fromStr (utf8DecodeLossy (buf.take bodyPos)) with
    | none => rw [hfs] at hreq; cases hreq
    | some r =>
      rw [hfs] at hreq
      simp only [Option.map_some'] at hreq
      cases hreq
      rfl
  · obtain ⟨⟨t, ht⟩, pre, post, hsp, hpos⟩ := readLoop_some_ex chunks [] buf bodyPos hps
    have hdec := splitFirstSeq_decomp crlf2b buf pre post (by rw [hsp])
    have hlen : bodyPos ≤ buf.length := by
      rw [hdec, hpos]
      simp only [List.length_append]
      have : crlf2b.length = 4 := by decide
      omega
    refine ⟨t, ?_⟩
    have hflat : chunks.flatten = buf ++ t := by simpa using ht
    rw [hflat, drop_append_le buf t bodyPos hlen]

/-- Claim C3 counterexample: the peer sends the header block in one read
and the body `hello` in a later read; the boundary is found after the first
read, so the attached body is empty while the complete body sent is
`hello` — the server routes a request with a partial body. -/
theorem c3_counterexample :
    (parsedRequestOf
        [[71, 69, 84, 32, 47, 32, 72, 84, 84, 80, 47, 49, 46, 49, 13, 10, 13, 10],
         [104, 101, 108, 108, 111]]).map (fun r => r.body) = some (some []) ∧
    ([[71, 69, 84, 32, 47, 32, 72, 84, 84, 80, 47, 49, 46, 49, 13, 10, 13, 10],
         [104, 101, 108, 108, 111]] : List (List Nat)).flatten.drop 18 =
      [104, 101, 108, 108, 111] ∧
    ([104, 101, 108, 108, 111] : List Nat) ≠ [] := by
  refine ⟨?_, by decide, by decide⟩
  rfl

/-- Claim C3 witness: the amended theorem at the concrete two-read input. -/
theorem c3_witness :
    (∀ req, parsedRequestOf
        [[71, 69, 84, 32, 47, 32, 72, 84, 84, 80, 47, 49, 46, 49, 13, 10, 13, 10],
         [104, 101, 108, 108, 111]] = some req →
      req.body = some (([71, 69, 84, 32, 47, 32, 72, 84, 84, 80, 47, 49, 46, 49,
        13, 10, 13, 10] : List Nat).drop 18)) ∧
    (∃ t, ([[71, 69, 84, 32, 47, 32, 72, 84, 84, 80, 47, 49, 46, 49, 13, 10, 13, 10],
         [104, 101, 108, 108, 111]] : List (List Nat)).flatten.drop 18 =
      ([71, 69, 84, 32, 47, 32, 72, 84, 84, 80, 47, 49, 46, 49,
        13, 10, 13, 10] : List Nat).drop 18 ++ t) :=
  c3_body_attachment
    [[71, 69, 84, 32, 47, 32, 72, 84, 84, 80, 47, 49, 46, 49, 13, 10, 13, 10],
     [104, 101, 108, 108, 111]]
    [71, 69, 84, 32, 47, 32, 72, 84, 84, 80, 47, 49, 46, 49, 13, 10, 13, 10] 18
    (by decide)

/-! ### Decimal numerals (`format!("{}", n)` prints `Nat.repr`) -/

/-- Decimal digit characters of a natural number, most significant first. -/
def natDigits (n : Nat) : List Char :=
  if h : n < 10 then [Nat.digitChar n]
  else natDigits (n / 10) ++ [Nat.digitChar (n % 10)]
termination_by n
decreasing_by
  exact Nat.div_lt_self (by omega) (by omega)

theorem toDigitsCore_eq_natDigits :
    ∀ (fuel n : Nat) (acc : List Char), n < fuel →
      Nat.toDigitsCore 10 fuel n acc = natDigits n ++ acc := by
  intro fuel
  induction fuel with
  | zero => intro n acc h; omega
  | succ f ih =>
    intro n acc h
    by_cases h0 : n / 10 = 0
    · have hn : n < 10 := by omega
      unfold natDigits
      rw [dif_pos hn]
      simp only [Nat.toDigitsCore, h0, if_pos]
      rw [Nat.mod_eq_of_lt hn]
      simp
    · have hn : ¬ n < 10 := by
        intro hlt
        exact h0 (Nat.div_eq_of_lt hlt)
      have hdivlt : n / 10 < n := Nat.div_lt_self (by omega) (by omega)
      unfold natDigits
      rw [dif_neg hn]
      simp only [Nat.toDigitsCore, h0, if_neg, if_false]
      rw [ih (n / 10) (Nat.digitChar (n % 10) :: acc) (by omega)]
      simp

theorem repr_data (n : Nat) : (Nat.repr n).data = natDigits n := by
  have h1 : (Nat.repr n).data = Nat.toDigitsCore 10 (n + 1) n [] := rfl
  rw [h1, toDigitsCore_eq_natDigits (n + 1) n [] (Nat.lt_succ_self n)]
  simp

theorem digitChar_isDigit (m : Nat) (h : m < 10) : (Nat.digitChar m).isDigit = true := by
  interval_cases m <;> decide

theorem digitChar_toNat (m : Nat) (h : m < 10) : (Nat.digitChar m).toNat = 48 + m := by
  interval_cases m <;> decide

theorem natDigits_all_digit : ∀ (n : Nat), ∀ c ∈ natDigits n, c.isDigit = true := by
  intro n
  induction n using Nat.strong_induction_on with
  | _ n ih =>
    by_cases h : n < 10
    · unfold natDigits
      rw [dif_pos h]
      intro c hc
      simp at hc
      subst hc
      exact digitChar_isDigit n h
    · unfold natDigits
      rw [dif_neg h]
      intro c hc
      rcases List.mem_append.mp hc with h1 | h2
      · exact ih (n / 10) (Nat.div_lt_self (by omega) (by omega)) c h1
      · simp at h2
        subst h2
        exact digitChar_isDigit (n % 10) (Nat.mod_lt _ (by omega))

theorem natDigits_ne_nil (n : Nat) : natDigits n ≠ [] := by
  unfold natDigits
  by_cases h : n < 10
  · rw [dif_pos h]; simp
  · rw [dif_neg h]; simp

theorem foldl_natDigits : ∀ (n : Nat), ∀ (a : Nat),
    (natDigits n).foldl (fun a c => a * 10 + (c.toNat - 48)) a =
      a * 10 ^ (natDigits n).length + n := by
  intro n
  induction n using Nat.strong_induction_on with
  | _ n ih =>
    intro a
    by_cases h : n < 10
    · unfold natDigits
      rw [dif_pos h]
      simp only [List.foldl_cons, List.foldl_nil, List.length_singleton, pow_one]
      rw [digitChar_toNat n h]
      omega
    · unfold natDigits
      rw [dif_neg h]
      rw [List.foldl_append]
      rw [ih (n / 10) (Nat.div_lt_self (by omega) (by omega)) a]
      simp only [List.foldl_cons, List.foldl_nil, List.length_append, List.length_singleton]
      rw [digitChar_toNat (n % 10) (Nat.mod_lt _ (by omega))]
      have hstep : (a * 10 ^ (natDigits (n / 10)).length + n / 10) * 10 + (48 + n % 10 - 48) =
          a * (10 ^ (natDigits (n / 10)).length * 10) + (10 * (n / 10) + n % 10) := by
        ring_nf
        omega
      rw [hstep, ← Nat.pow_succ, Nat.div_add_mod]

theorem digitsToNat_natDigits (n : Nat) : digitsToNat (natDigits n) = n := by
  unfold digitsToNat
  rw [foldl_natDigits n 0]
  simp

/-! ### Response extraction (round-trip side of claim C4) -/

def crlfcrlf : List Char := ['\r', '\n', '\r', '\n']

def clHdr : List Char := "Content-Length: ".data

def fixedCLPre : String := "HTTP/1.1 200 OK\r\nContent-Type: text/plain\r\nContent-Length: "

def preCL : String := "HTTP/1.1 200 OK\r\nContent-Type: text/plain\r\n"

/-- Extract the body of a serialized response: everything after the first
`\r\n\r\n`. -/
def extractBody (r : String) : Option String :=
  (splitFirstSeq crlfcrlf r.data).map fun pr => String.mk pr.2

/-- Extract the Content-Length of a serialized response: the digit run
after the first occurrence of `Content-Length: `. -/
def extractContentLength (r : String) : Option Nat :=
  (splitFirstSeq clHdr r.data).bind fun pr =>
    if pr.2.takeWhile Char.isDigit = [] then none
    else some (digitsToNat (pr.2.takeWhile Char.isDigit))

theorem getElem?_of_drop_eq {α : Type} (xs pat t : List α) (j i : Nat)
    (hdrop : xs.drop j = pat ++ t) (hi : i < pat.length) :
    xs[j + i]? = pat[i]? := by
  have h1 : (xs.drop j)[i]? = pat[i]? := by
    rw [hdrop]; exact List.getElem?_append_left hi
  rw [List.getElem?_drop] at h1
  exact h1

theorem fixedA_cr_check : ∀ j, j < fixedCLPre.data.length →
    fixedCLPre.data[j]? = some '\r' →
    j + 2 < fixedCLPre.data.length ∧ fixedCLPre.data[j + 2]? ≠ some '\r' := by decide

theorem no_crlf2_in_header (D : List Char) (hD : ∀ c ∈ D, c.isDigit = true) (s : List Char) :
    ∀ j, j < (fixedCLPre.data ++ D).length → ∀ t,
      ((fixedCLPre.data ++ D) ++ crlfcrlf ++ s).drop j ≠ crlfcrlf ++ t := by
  intro j hj t hdrop
  have h0 : ((fixedCLPre.data ++ D) ++ crlfcrlf ++ s)[j]? = some '\r' := by
    have h := getElem?_of_drop_eq _ crlfcrlf t j 0 hdrop (by decide)
    rw [Nat.add_zero] at h
    exact h.trans (by rfl)
  have h2 : ((fixedCLPre.data ++ D) ++ crlfcrlf ++ s)[j + 2]? = some '\r' := by
    have h := getElem?_of_drop_eq _ crlfcrlf t j 2 hdrop (by decide)
    exact h.trans (by rfl)
  rw [List.length_append] at hj
  by_cases hjA : j < fixedCLPre.data.length
  · have heq : ((fixedCLPre.data ++ D) ++ crlfcrlf ++ s)[j]? = fixedCLPre.data[j]? := by
      rw [List.append_assoc, List.append_assoc]
      exact List.getElem?_append_left hjA
    rw [heq] at h0
    obtain ⟨hj2, hne2⟩ := fixedA_cr_check j hjA h0
    have heq2 : ((fixedCLPre.data ++ D) ++ crlfcrlf ++ s)[j + 2]? = fixedCLPre.data[j + 2]? := by
      rw [List.append_assoc, List.append_assoc]
      exact List.getElem?_append_left hj2
    rw [heq2] at h2
    exact hne2 h2
  · push_neg at hjA
    have heq : ((fixedCLPre.data ++ D) ++ crlfcrlf ++ s)[j]? =
        D[j - fixedCLPre.data.length]? := by
      rw [List.append_assoc, List.append_assoc,
        List.getElem?_append_right hjA]
      exact List.getElem?_append_left (by omega)
    rw [heq] at h0
    obtain ⟨hlt, hget⟩ := List.getElem?_eq_some_iff.mp h0
    have hmem : '\r' ∈ D := by
      rw [← hget]
      exact List.getElem_mem hlt
    exact absurd (hD '\r' hmem) (by decide)

theorem startsWith_append_of_le {α : Type} [DecidableEq α] :
    ∀ (pat u v : List α), pat.length ≤ u.length →
      listStartsWith pat (u ++ v) = listStartsWith pat u := by
  intro pat
  induction pat with
  | nil =>
    intro u v _
    cases u <;> rfl
  | cons p ps ih =>
    intro u v h
    cases u with
    | nil => simp at h
    | cons x u' =>
      simp only [List.cons_append, listStartsWith]
      by_cases hp : p = x
      · rw [if_pos hp, if_pos hp]
        exact ih u' v (by simpa using h)
      · rw [if_neg hp, if_neg hp]

theorem no_clHdr_in_pre (X : List Char) :
    ∀ j, j < preCL.data.length → ∀ t, (preCL.data ++ clHdr ++ X).drop j ≠ clHdr ++ t := by
  intro j hj t hdrop
  have hsw : listStartsWith clHdr ((preCL.data ++ clHdr ++ X).drop j) = true :=
    (listStartsWith_iff _ _).mpr ⟨t, hdrop⟩
  have hd : (preCL.data ++ clHdr ++ X).drop j = (preCL.data ++ clHdr).drop j ++ X :=
    drop_append_le (preCL.data ++ clHdr) X j (by rw [List.length_append]; omega)
  rw [hd] at hsw
  have hlen : clHdr.length ≤ ((preCL.data ++ clHdr).drop j).length := by
    rw [List.length_drop, List.length_append]
    have h16 : clHdr.length = 16 := by decide
    have h43 : preCL.data.length = 43 := by decide
    omega
  rw [startsWith_append_of_le clHdr _ X hlen] at hsw
  have hchk : ∀ j', j' < preCL.data.length →
      listStartsWith clHdr ((preCL.data ++ clHdr).drop j') = false := by decide
  rw [hchk j hj] at hsw
  cases hsw

/-! ### Claim C4 -/

theorem into_response_ok_data (s : List Char) :
    (into_response (.Ok (some s))).data =
      (fixedCLPre.data ++ natDigits (utf8Len s)) ++ crlfcrlf ++ s := by
  show (fixedCLPre ++ Nat.repr (utf8Len s) ++ "\r\n\r\n" ++ String.mk s).data = _
  rw [String.data_append, String.data_append, String.data_append, repr_data]
  show fixedCLPre.data ++ natDigits (utf8Len s) ++ crlfcrlf ++ s = _
  simp [List.append_assoc]

/-- Claim C4: serializing `Ok(Some s)` yields exactly the 200 text/plain
header block with Content-Length equal to the UTF-8 byte length of `s`
followed by `s`; extracting the Content-Length and the trailing body from
the serialization recovers that byte length and `s` itself. -/
theorem c4_ok_some_roundtrip (s : List Char) :
    into_response (.Ok (some s)) =
      "HTTP/1.1 200 OK\r\nContent-Type: text/plain\r\nContent-Length: " ++
        Nat.repr (utf8Len s) ++ "\r\n\r\n" ++ String.mk s ∧
    extractContentLength (into_response (.Ok (some s))) = some (utf8Len s) ∧
    extractBody (into_response (.Ok (some s))) = some (String.mk s) := by
  have hD := natDigits_all_digit (utf8Len s)
  refine ⟨rfl, ?_, ?_⟩
  · unfold extractContentLength
    have hdata2 : (into_response (.Ok (some s))).data =
        preCL.data ++ clHdr ++ (natDigits (utf8Len s) ++ (crlfcrlf ++ s)) := by
      rw [into_response_ok_data]
      have hsplit : fixedCLPre.data = preCL.data ++ clHdr := by decide
      rw [hsplit]
      simp [List.append_assoc]
    rw [hdata2, splitFirstSeq_intro clHdr _ _ (no_clHdr_in_pre _)]
    have htw : (natDigits (utf8Len s) ++ (crlfcrlf ++ s)).takeWhile Char.isDigit =
        natDigits (utf8Len s) := by
      rw [takeWhile_append_all Char.isDigit _ _ hD]
      have : (crlfcrlf ++ s).takeWhile Char.isDigit = [] := by
        show (('\r' :: ('\n' :: '\r' :: '\n' :: [])) ++ s).takeWhile Char.isDigit = []
        rw [List.cons_append, List.takeWhile_cons, if_neg (by decide)]
      rw [this]
      simp
    simp only [Option.some_bind]
    rw [htw, if_neg (natDigits_ne_nil (utf8Len s)), digitsToNat_natDigits]
  · unfold extractBody
    rw [into_response_ok_data,
      splitFirstSeq_intro crlfcrlf _ _ (no_crlf2_in_header (natDigits (utf8Len s)) hD s)]
    rfl

/-- Claim C4 witness: the round-trip at the concrete body `abc`
(Content-Length 3). -/
theorem c4_witness :
    extractContentLength (into_response (.Ok (some "abc".data))) =
      some (utf8Len "abc".data) ∧
    extractBody (into_response (.Ok (some "abc".data))) = some (String.mk "abc".data) :=
  ⟨(c4_ok_some_roundtrip "abc".data).2.1, (c4_ok_some_roundtrip "abc".data).2.2⟩

/-! ### Header-scan support lemmas (claim C5) -/

theorem mem_dropWhile_imp {α : Type} (p : α → Bool) :
    ∀ (l : List α) (c : α), c ∈ l.dropWhile p → c ∈ l := by
  intro l
  induction l with
  | nil => intro c hc; simpa using hc
  | cons a l' ih =>
    intro c hc
    rw [List.dropWhile_cons] at hc
    by_cases hpa : p a = true
    · rw [if_pos hpa] at hc
      exact List.mem_cons_of_mem a (ih c hc)
    · rw [if_neg hpa] at hc
      exact hc

theorem dropWhile_ne_nil_of_exists {α : Type} (p : α → Bool) :
    ∀ (l : List α), (∃ c ∈ l, p c = false) → l.dropWhile p ≠ [] := by
  intro l
  induction l with
  | nil => rintro ⟨c, hc, _⟩; simp at hc
  | cons a l' ih =>
    rintro ⟨c, hc, hpc⟩
    rw [List.dropWhile_cons]
    by_cases hpa : p a = true
    · rw [if_pos hpa]
      rcases List.mem_cons.mp hc with rfl | hmem
      · rw [hpa] at hpc; cases hpc
      · exact ih ⟨c, hmem, hpc⟩
    · rw [if_neg hpa]
      simp

theorem dropWhile_append_left {α : Type} (p : α → Bool) :
    ∀ (x w : List α), x.dropWhile p ≠ [] → (x ++ w).dropWhile p = x.dropWhile p ++ w := by
  intro x
  induction x with
  | nil => intro w h; exact absurd rfl h
  | cons a x' ih =>
    intro w h
    by_cases hpa : p a = true
    · rw [List.dropWhile_cons, if_pos hpa] at h
      simp only [List.cons_append, List.dropWhile_cons, if_pos hpa]
      exact ih w h
    · simp only [List.cons_append, List.dropWhile_cons, if_neg hpa]

theorem rustTrim_ws_append (w x : List Char) (hw : ∀ c ∈ w, rustIsWs c = true) :
    rustTrim (w ++ x) = rustTrim x := by
  unfold rustTrim
  rw [dropWhile_append_all rustIsWs w x hw]

theorem rustTrim_append_ws (x w : List Char) (hw : ∀ c ∈ w, rustIsWs c = true) :
    rustTrim (x ++ w) = rustTrim x := by
  unfold rustTrim
  by_cases hx : x.dropWhile rustIsWs = []
  · rw [hx]
    have hxw : ∀ c ∈ x ++ w, rustIsWs c = true := by
      intro c hc
      rcases List.mem_append.mp hc with h1 | h2
      · by_contra hnot
        exact absurd (List.takeWhile_append_dropWhile rustIsWs x)
          (by
            rw [hx, List.append_nil]
            intro heq
            have := List.mem_takeWhile_imp (heq ▸ h1)
            simp [this] at hnot)
      · exact hw c h2
    rw [dropWhile_append_all rustIsWs x w (fun c hc => hxw c (List.mem_append_left w hc))]
    have : w.dropWhile rustIsWs = [] := by
      rw [List.dropWhile_eq_nil_iff]
      intro c hc
      exact hw c hc
    rw [this]
  · rw [dropWhile_append_left rustIsWs x w hx, List.reverse_append,
      dropWhile_append_all rustIsWs w.reverse _ (fun c hc => hw c (by simpa using hc))]

theorem rustTrim_dropWhile (x : List Char) : rustTrim (x.dropWhile rustIsWs) = rustTrim x := by
  conv_rhs => rw [← List.takeWhile_append_dropWhile rustIsWs x]
  rw [rustTrim_ws_append _ _ (fun c hc => List.mem_takeWhile_imp hc)]

theorem isNotNewline_true_iff (c : Char) : isNotNewline c = true ↔ c ≠ '\n' := by
  unfold isNotNewline
  by_cases h : c = '\n'
  · rw [if_pos h]; simp [h]
  · rw [if_neg h]; simp [h]

theorem lastLineOf_append_free (pre k : List Char) (hk : ∀ c ∈ k, c ≠ '\n') :
    lastLineOf (pre ++ k) = lastLineOf pre ++ k := by
  unfold lastLineOf
  rw [List.reverse_append,
    takeWhile_append_all isNotNewline k.reverse pre.reverse
      (fun c hc => (isNotNewline_true_iff c).mpr (hk c (by simpa using hc))),
    List.reverse_append, List.reverse_reverse]

theorem splitFirst_colon :
    ∀ (q tail : List Char), (∀ c ∈ q, c ≠ ':') →
      splitFirstSeq [':'] (q ++ ':' :: tail) = some (q, tail) := by
  intro q
  induction q with
  | nil =>
    intro tail _
    rw [List.nil_append, splitFirstSeq_cons_eq,
      if_pos (by simp [listStartsWith])]
    simp
  | cons c q' ih =>
    intro tail hq
    have hc : ¬ (c = ':') := fun h => hq c (by simp) h
    have hsw : listStartsWith [':'] (c :: (q' ++ ':' :: tail)) = false := by
      simp only [listStartsWith]
      rw [if_neg (fun h : ':' = c => hc h.symm)]
    rw [List.cons_append, splitFirstSeq_cons_eq, if_neg (by simp [hsw]),
      ih tail (fun d hd => hq d (by simp [hd]))]

theorem scanHeaders_eq_some (xs pre post : List Char)
    (h : splitFirstSeq [':'] xs = some (pre, post)) :
    scanHeaders xs = (lastLineOf pre, scanValue post) :: scanHeaders (scanRest post) := by
  rw [scanHeaders.eq_def]
  split
  · next heq => rw [h] at heq; cases heq
  · next pr heq =>
    rw [h] at heq
    injection heq with h2
    subst h2
    rfl

theorem scanHeaders_eq_nil (xs : List Char) (h : splitFirstSeq [':'] xs = none) :
    scanHeaders xs = [] := by
  rw [scanHeaders.eq_def]
  split
  · rfl
  · next pr heq => rw [h] at heq; cases heq

/-! ### Claim C5: well-formed header blocks -/

/-- CRLF-terminated header lines followed by the blank terminator line. -/
def headerLines : List (List Char × List Char) → List Char
  | [] => ['\r', '\n']
  | (k, v) :: rest => k ++ ':' :: (v ++ '\r' :: '\n' :: headerLines rest)

/-- A full header block: request line, CRLF, header lines, blank line. -/
def mkHeaderBlock (reqline : List Char) (pairs : List (List Char × List Char)) : List Char :=
  reqline ++ '\r' :: '\n' :: headerLines pairs

/-- Well-formedness of one `key: value` line: the key holds no newline and
no colon, the value holds no newline and at least one non-whitespace
character. -/
def goodPair (p : List Char × List Char) : Prop :=
  (∀ c ∈ p.1, c ≠ '\n' ∧ c ≠ ':') ∧ (∀ c ∈ p.2, c ≠ '\n') ∧ ∃ c ∈ p.2, rustIsWs c = false

instance (p : List Char × List Char) : Decidable (goodPair p) := by
  unfold goodPair
  infer_instance

theorem splitFirstSeq_single_none (q : List Char) (hq : ∀ c ∈ q, c ≠ ':') :
    splitFirstSeq [':'] q = none := by
  induction q with
  | nil => rfl
  | cons c q' ih =>
    rw [splitFirstSeq_cons_eq]
    have h1 : listStartsWith [':'] (c :: q') = false := by
      simp only [listStartsWith]
      rw [if_neg (fun h : ':' = c => hq c (by simp) h.symm)]
    rw [if_neg (by simp [h1]), ih (fun d hd => hq d (by simp [hd]))]

theorem scan_term (pre : List Char) (hpre : ∀ c ∈ pre, c ≠ ':') :
    scanHeaders (pre ++ ['\r', '\n']) = [] :=
  scanHeaders_eq_nil _ (splitFirstSeq_single_none _ (by
    intro c hc
    rcases List.mem_append.mp hc with h1 | h2
    · exact hpre c h1
    · simp at h2
      rcases h2 with rfl | rfl <;> decide))

theorem scan_headerLines :
    ∀ (n : Nat) (pairs : List (List Char × List Char)) (pre : List Char),
      pairs.length ≤ n →
      (∀ p ∈ pairs, goodPair p) →
      (∀ c ∈ pre, c ≠ ':') →
      (∀ c ∈ lastLineOf pre, rustIsWs c = true) →
      (scanHeaders (pre ++ headerLines pairs)).map
          (fun q => (rustTrim q.1, rustTrim q.2)) =
        pairs.map (fun p => (rustTrim p.1, rustTrim p.2)) := by
  intro n
  induction n with
  | zero =>
    intro pairs pre hlen _ hpre _
    have hnil : pairs = [] := List.length_eq_zero.mp (Nat.le_zero.mp hlen)
    subst hnil
    have h0 : headerLines ([] : List (List Char × List Char)) = ['\r', '\n'] := rfl
    rw [h0, scan_term pre hpre]
  | succ m ih =>
    intro pairs pre hlen hgood hpre hpws
    cases pairs with
    | nil =>
      have h0 : headerLines ([] : List (List Char × List Char)) = ['\r', '\n'] := rfl
      rw [h0, scan_term pre hpre]
    | cons p rest =>
      obtain ⟨k, v⟩ := p
      obtain ⟨hk, hv, hvne⟩ := hgood (k, v) (by simp)
      have hblock : pre ++ headerLines ((k, v) :: rest) =
          (pre ++ k) ++ ':' :: (v ++ '\r' :: '\n' :: headerLines rest) := by
        show pre ++ (k ++ ':' :: (v ++ '\r' :: '\n' :: headerLines rest)) = _
        rw [← List.append_assoc]
      have hsplit : splitFirstSeq [':'] (pre ++ headerLines ((k, v) :: rest)) =
          some (pre ++ k, v ++ '\r' :: '\n' :: headerLines rest) := by
        rw [hblock]
        exact splitFirst_colon (pre ++ k) _ (by
          intro c hc
          rcases List.mem_append.mp hc with h1 | h2
          · exact hpre c h1
          · exact (hk c h2).2)
      rw [scanHeaders_eq_some _ _ _ hsplit]
      have hDne : v.dropWhile rustIsWs ≠ [] := dropWhile_ne_nil_of_exists rustIsWs v hvne
      have hval : scanValue (v ++ '\r' :: '\n' :: headerLines rest) =
          v.dropWhile rustIsWs ++ ['\r'] := by
        unfold scanValue
        rw [dropWhile_append_left rustIsWs v _ hDne,
          takeWhile_append_all isNotNewline _ _ (fun c hc =>
            (isNotNewline_true_iff c).mpr (hv c (mem_dropWhile_imp rustIsWs v c hc))),
          List.takeWhile_cons, if_pos (by decide), List.takeWhile_cons, if_neg (by decide)]
      have hrest : scanRest (v ++ '\r' :: '\n' :: headerLines rest) =
          (headerLines rest).dropWhile rustIsWs := by
        unfold scanRest
        rw [show scanValue (v ++ '\r' :: '\n' :: headerLines rest) =
            v.dropWhile rustIsWs ++ ['\r'] from hval,
          dropWhile_append_left rustIsWs v _ hDne]
        have hre : v.dropWhile rustIsWs ++ '\r' :: '\n' :: headerLines rest =
            (v.dropWhile rustIsWs ++ ['\r']) ++ '\n' :: headerLines rest := by simp
        rw [hre, List.drop_left, List.dropWhile_cons, if_pos (by decide)]
      have hheadtrim : rustTrim (lastLineOf (pre ++ k)) = rustTrim k := by
        rw [lastLineOf_append_free pre k (fun c hc => (hk c hc).1),
          rustTrim_ws_append (lastLineOf pre) k hpws]
      have hvaltrim : rustTrim (v.dropWhile rustIsWs ++ ['\r']) = rustTrim v := by
        rw [rustTrim_append_ws _ ['\r'] (by
            intro c hc
            simp at hc
            subst hc
            decide),
          rustTrim_dropWhile]
      rw [hval, hrest]
      cases rest with
      | nil =>
        have h1 : (headerLines ([] : List (List Char × List Char))).dropWhile rustIsWs = [] := by
          decide
        rw [h1, scanHeaders_eq_nil [] (by rfl)]
        simp only [List.map_cons, List.map_nil]
        rw [hheadtrim, hvaltrim]
      | cons p2 rest2 =>
        obtain ⟨k2, v2⟩ := p2
        have hdw : (headerLines ((k2, v2) :: rest2)).dropWhile rustIsWs =
            headerLines ((k2.dropWhile rustIsWs, v2) :: rest2) := by
          show (k2 ++ ':' :: (v2 ++ '\r' :: '\n' :: headerLines rest2)).dropWhile rustIsWs =
            k2.dropWhile rustIsWs ++ ':' :: (v2 ++ '\r' :: '\n' :: headerLines rest2)
          exact dropWhile_append_stop rustIsWs k2 ':' _ (by decide)
        rw [hdw]
        have hih := ih ((k2.dropWhile rustIsWs, v2) :: rest2) []
          (by
            simp only [List.length_cons] at hlen ⊢
            omega)
          (by
            intro q hq
            rcases List.mem_cons.mp hq with rfl | hmem
            · obtain ⟨hk2, hv2, hv2ne⟩ := hgood (k2, v2) (by simp)
              exact ⟨fun c hc => hk2 c (mem_dropWhile_imp _ _ c hc), hv2, hv2ne⟩
            · exact hgood q (by simp [hmem]))
          (by intro c hc; simp at hc)
          (by intro c hc; simp [lastLineOf] at hc)
        rw [List.nil_append] at hih
        simp only [List.map_cons]
        rw [hheadtrim, hvaltrim]
        congr 1
        rw [hih]
        simp only [List.map_cons]
        rw [rustTrim_dropWhile k2]

def buildTrimmed (ts : List (List Char × List Char)) : HeadersMap :=
  ts.foldl (fun m p => insertHeader m p.1 (classifyValue p.2)) emptyHeaders

theorem buildHeaders_eq_buildTrimmed (caps : List (List Char × List Char)) :
    buildHeaders caps = buildTrimmed (caps.map fun p => (rustTrim p.1, rustTrim p.2)) := by
  have haux : ∀ (caps : List (List Char × List Char)) (m : HeadersMap),
      caps.foldl (fun m p => insertHeader m (rustTrim p.1) (classifyValue (rustTrim p.2))) m =
      (caps.map fun p => (rustTrim p.1, rustTrim p.2)).foldl
        (fun m p => insertHeader m p.1 (classifyValue p.2)) m := by
    intro caps
    induction caps with
    | nil => intro m; rfl
    | cons p caps' ih =>
      intro m
      simp only [List.foldl_cons, List.map_cons]
      exact ih _
  exact haux caps emptyHeaders

theorem buildTrimmed_lookup :
    ∀ (ts : List (List Char × List Char)) (key : List Char),
      buildTrimmed ts key =
        ((ts.filter fun p => decide (p.1 = key)).getLast?).map fun p => classifyValue p.2 := by
  intro ts
  induction ts using List.reverseRecOn with
  | nil => intro key; rfl
  | append_singleton ts' p ih =>
    intro key
    unfold buildTrimmed
    rw [List.foldl_concat]
    show insertHeader (buildTrimmed ts') p.1 (classifyValue p.2) key = _
    unfold insertHeader
    rw [List.filter_append]
    by_cases hkey : key = p.1
    · rw [if_pos hkey]
      have hf : (List.filter (fun q => decide (q.1 = key)) [p]) = [p] := by
        simp [List.filter_cons, hkey.symm]
      rw [hf, List.getLast?_concat]
      rfl
    · rw [if_neg hkey]
      have hf : (List.filter (fun q => decide (q.1 = key)) [p]) = [] := by
        simp only [List.filter_cons, List.filter_nil]
        rw [if_neg (by simp; exact fun h => hkey h.symm)]
      rw [hf, List.append_nil]
      exact ih key

/-- Claim C5 (amended): for every header line `key: value` whose key holds
no colon or newline and whose value holds no newline and at least one
non-whitespace character, the parser trims surrounding whitespace from key
and value, stores the value with the integer tag when the trimmed value
parses fully as an `i32` and the string tag otherwise, and when the same
trimmed key occurs more than once the last occurrence's value is stored
(map insertion overwrites).  Lines whose value is blank are excluded: there
the regex `\s*` eats the line break and absorbs the following line. -/
theorem c5_header_parsing (reqline : List Char) (pairs : List (List Char × List Char))
    (hrl : ∀ c ∈ reqline, c ≠ ':' ∧ c ≠ '\n')
    (hpairs : ∀ p ∈ pairs, goodPair p) (key : List Char) :
    buildHeaders (scanHeaders (mkHeaderBlock reqline pairs)) key =
      ((pairs.filter fun p => decide (rustTrim p.1 = key)).getLast?).map
        (fun p => classifyValue (rustTrim p.2)) := by
  have hpre : ∀ c ∈ reqline ++ ['\r', '\n'], c ≠ ':' := by
    intro c hc
    rcases List.mem_append.mp hc with h1 | h2
    · exact (hrl c h1).1
    · simp at h2
      rcases h2 with rfl | rfl <;> decide
  have hpws : ∀ c ∈ lastLineOf (reqline ++ ['\r', '\n']), rustIsWs c = true := by
    have hempty : lastLineOf (reqline ++ ['\r', '\n']) = [] := by
      unfold lastLineOf
      rw [List.reverse_append]
      show (('\n' :: '\r' :: reqline.reverse).takeWhile isNotNewline).reverse = []
      rw [List.takeWhile_cons, if_neg (by decide)]
      rfl
    rw [hempty]
    intro c hc
    simp at hc
  have hblock : mkHeaderBlock reqline pairs = (reqline ++ ['\r', '\n']) ++ headerLines pairs := by
    unfold mkHeaderBlock
    simp
  have hscan := scan_headerLines pairs.length pairs (reqline ++ ['\r', '\n'])
    (Nat.le_refl _) hpairs hpre hpws
  rw [hblock, buildHeaders_eq_buildTrimmed, hscan, buildTrimmed_lookup,
    List.filter_map, List.getLast?_map, Option.map_map]
  rfl

/-- Claim C5 counterexample: in the block `A:` then `B: 2`, the line
`B: 2` — a header line of the form `key: value` — is not stored at all
(lookup of `B` is `none`, not the integer `2`): the regex absorbs it as the
value of `A`, which ends up holding the string `B: 2`. -/
theorem c5_counterexample :
    buildHeaders (scanHeaders (mkHeaderBlock "GET / HTTP/1.1".data
      [("A".data, ([] : List Char)), ("B".data, " 2".data)])) "B".data = none ∧
    buildHeaders (scanHeaders (mkHeaderBlock "GET / HTTP/1.1".data
      [("A".data, ([] : List Char)), ("B".data, " 2".data)])) "A".data =
      some (.Str "B: 2".data) := by
  have h1 : splitFirstSeq [':'] (mkHeaderBlock "GET / HTTP/1.1".data
      [("A".data, ([] : List Char)), ("B".data, " 2".data)]) =
      some ("GET / HTTP/1.1\r\nA".data, "\r\nB: 2\r\n\r\n".data) := by decide
  have h2 := scanHeaders_eq_some _ _ _ h1
  have h3 : scanRest "\r\nB: 2\r\n\r\n".data = [] := by decide
  rw [h3, scanHeaders_eq_nil [] (by decide)] at h2
  rw [h2]
  constructor
  · decide
  · decide

/-- Claim C5 witness: the amended theorem at a concrete block with a
duplicate key (last wins), an integer-classified value and a
string-classified value. -/
theorem c5_witness :
    buildHeaders (scanHeaders (mkHeaderBlock "GET / HTTP/1.1".data
      [("X".data, " 42".data), ("Y".data, " 42a".data), ("X".data, " 7".data)])) "X".data =
      some (.Number 7) ∧
    buildHeaders (scanHeaders (mkHeaderBlock "GET / HTTP/1.1".data
      [("X".data, " 42".data), ("Y".data, " 42a".data), ("X".data, " 7".data)])) "Y".data =
      some (.Str "42a".data) := by
  constructor
  · rw [c5_header_parsing "GET / HTTP/1.1".data
      [("X".data, " 42".data), ("Y".data, " 42a".data), ("X".data, " 7".data)]
      (by decide) (by decide) "X".data]
    decide
  · rw [c5_header_parsing "GET / HTTP/1.1".data
      [("X".data, " 42".data), ("Y".data, " 42a".data), ("X".data, " 7".data)]
      (by decide) (by decide) "Y".data]
    decide
